import Mathlib

/-!
Verification of the fastbloom blocked Bloom filter core (src/src/lib.rs).

The Rust code is shallowly embedded: `u64` values are `Nat` reduced mod `2 ^ 64`
where wrapping matters, the backing `BlockedBitVec` is its list of 64-bit words,
and the user-supplied hasher is an arbitrary function to `Nat` (its `finish()`
output is a `u64`, hence reduced mod `2 ^ 64`).  The submodules `bit_vector.rs`,
`signature.rs`, `builder.rs` and `hasher.rs` are not part of the sources; their
operations are modelled from the specification (§4.2, §4.4, §6) and marked so.
-/

/-- The modulus of Rust `u64` (and 64-bit `usize`) arithmetic. -/
def U64 : Nat := 2 ^ 64

/-- Rust `u64::rotate_left(x, 5)`: `(x << 5) | (x >> 59)` on 64-bit words. -/
def rotateLeft5 (x : Nat) : Nat := ((x <<< 5) % U64) ||| (x >>> 59)

/-- `next_hash` (src/src/lib.rs lines 401-404):
`*h1 = h1.wrapping_add(h2).rotate_left(5); *h1` — the new `h1` is returned. -/
def next_hash (h1 h2 : Nat) : Nat := rotateLeft5 ((h1 + h2) % U64)

/-- The value of `h1` after `n` applications of `next_hash` with increment `h2`.
This is the shared derived-hash stream consumed by both `insert` and `contains`. -/
def hIter (h2 : Nat) : Nat → Nat → Nat
  | 0, h1 => h1
  | n + 1, h1 => hIter h2 n (next_hash h1 h2)

/-- `get_orginal_hashes` (src/src/lib.rs lines 423-432): the hasher produces
`h1 : u64`; `h2 = h1.wrapping_shr(32).wrapping_mul(0x517cc1b727220a95)`.
The user hasher is modelled as a plain function `α → Nat`; `finish()` returns a
`u64`, so its output is reduced mod `2 ^ 64`. -/
def get_orginal_hashes {α : Type} (hasher : α → Nat) (v : α) : Nat × Nat :=
  let h1 := hasher v % U64
  (h1, (h1 >>> 32) * 0x517cc1b727220a95 % U64)

/-- `block_index` (src/src/lib.rs lines 439-441):
`((hash >> 32) as usize * num_blocks) >> 32`, on a 64-bit `usize`;
the multiplication wraps mod `2 ^ 64` (release-mode overflow semantics). -/
def block_index (num_blocks : Nat) (hash : Nat) : Nat :=
  ((hash >>> 32) * num_blocks % U64) >>> 32

/-- Modelled from the spec: `bit_vector.rs` is not in src/.  §4.2
`set_for_block(block, offset)` sets the bit at `offset ∈ [0, B)` by
`block[offset/64] |= 1 << (offset % 64)`. -/
def set_for_block (block : List Nat) (offset : Nat) : List Nat :=
  block.set (offset / 64) (block.getD (offset / 64) 0 ||| 1 <<< (offset % 64))

/-- Modelled from the spec: `bit_vector.rs` is not in src/.  §4.2
`check_for_block(block, offset)` tests the bit that `set_for_block` sets. -/
def check_for_block (block : List Nat) (offset : Nat) : Bool :=
  block.getD (offset / 64) 0 &&& 1 <<< (offset % 64) != 0

/-- Modelled from the spec: `signature.rs` is not in src/.  §4.4
`signature(h1, h2, rounds) → u64`: OR together `rounds` values of
`1 << (next_hash(&h1, h2) & 63)`, advancing `h1` each round.  Returns the
advanced `h1` together with the mask. -/
def signature (h2 : Nat) : Nat → Nat → Nat × Nat
  | h1, 0 => (h1, 0)
  | h1, r + 1 =>
    let h := next_hash h1 h2
    let p := signature h2 h r
    (p.1, p.2 ||| 1 <<< (h &&& 63))

/-- The sparse-bit loop of `insert` (src/src/lib.rs lines 304-306):
`for _ in 0..num_hashes { set_for_block(block, bit_index(&mut h1, h2)) }`,
where `bit_index` (lines 284-287) advances `h1` and masks with
`BIT_INDEX_MASK = BLOCK_SIZE_BITS - 1`.  Returns the advanced `h1` and the
updated block. -/
def sparse_insert (B h2 : Nat) : Nat → Nat → List Nat → Nat × List Nat
  | 0, h1, block => (h1, block)
  | n + 1, h1, block =>
    let h := next_hash h1 h2
    sparse_insert B h2 n h (set_for_block block (h &&& (B - 1)))

/-- The sparse-bit loop of `contains` (src/src/lib.rs lines 332-334):
`(0..num_hashes).all(|_| check_for_block(block, bit_index(&mut h1, h2)))`.
Returns `h1` advanced by `n` steps and the conjunction of the bit checks.
Rust's `all` short-circuits, which stops advancing `h1` early on failure;
the boolean produced here is nevertheless identical, because the remaining
checks (and the whole signature phase, cut off by the short-circuiting `&&`
in `contains`) can no longer change a `false` outcome. -/
def sparse_check (B h2 : Nat) : Nat → Nat → List Nat → Nat × Bool
  | 0, h1, _ => (h1, true)
  | n + 1, h1, block =>
    let h := next_hash h1 h2
    let p := sparse_check B h2 n h block
    (p.1, check_for_block block (h &&& (B - 1)) && p.2)

/-- The signature loop of `insert` (src/src/lib.rs lines 307-313):
`for i in 0..block.len() { block[i] |= signature(&mut h1, h2, num_rounds) }`. -/
def sig_insert (h2 rounds : Nat) : Nat → List Nat → List Nat
  | _, [] => []
  | h1, w :: ws =>
    let p := signature h2 h1 rounds
    (w ||| p.2) :: sig_insert h2 rounds p.1 ws

/-- The signature loop of `contains` (src/src/lib.rs lines 334-341):
`(0..block.len()).all(|i| block[i] & signature(&mut h1, h2, num_rounds)
  == signature(..))`.  As with `sparse_check`, evaluating every check instead
of short-circuiting yields the same boolean. -/
def sig_check (h2 rounds : Nat) : Nat → List Nat → Bool
  | _, [] => true
  | h1, w :: ws =>
    let p := signature h2 h1 rounds
    (w &&& p.2 == p.2) && sig_check h2 rounds p.1 ws

/-- `BloomFilter` (src/src/lib.rs lines 56-67).  The const generic
`BLOCK_SIZE_BITS` becomes the field `blockSizeBits`; the `BlockedBitVec` is
modelled by its list of 64-bit words (`bit_vector.rs` is not in src/, spec
§4.2: a flat buffer of words chunked into blocks of `B/64` words); the hasher
is modelled as a function `α → Nat`. -/
structure BloomFilter (α : Type) where
  blockSizeBits : Nat
  bits : List Nat
  target_hashes : Nat
  num_rounds : Option Nat
  num_hashes : Nat
  hasher : α → Nat

/-- Words per block: `BLOCK_SIZE_BITS / 64` (spec §4.2). -/
def BloomFilter.wpb {α : Type} (f : BloomFilter α) : Nat := f.blockSizeBits / 64

/-- `num_blocks` (src/src/lib.rs lines 357-359), via the `BlockedBitVec` block
count (modelled from the spec §4.2: word count is a multiple of `B/64` and
`num_blocks() × B = num_bits`). -/
def BloomFilter.num_blocks {α : Type} (f : BloomFilter α) : Nat :=
  f.bits.length / f.wpb

/-- `num_bits` (src/src/lib.rs lines 351-353): `num_blocks() * BLOCK_SIZE_BITS`. -/
def BloomFilter.num_bits {α : Type} (f : BloomFilter α) : Nat :=
  f.num_blocks * f.blockSizeBits

/-- `pub fn num_hashes` (src/src/lib.rs lines 346-348):
`self.target_hashes as u32` — the `u32` cast truncates mod `2 ^ 32`.
Named `reported_num_hashes` because the Rust method shares its name with the
private field. -/
def BloomFilter.reported_num_hashes {α : Type} (f : BloomFilter α) : Nat :=
  f.target_hashes % 2 ^ 32

/-- `as_slice` (src/src/lib.rs lines 373-375). -/
def BloomFilter.as_slice {α : Type} (f : BloomFilter α) : List Nat := f.bits

/-- Modelled from the spec: `bit_vector.rs` is not in src/.  §4.2
`get_block(i)`: read-only view of the `B/64` words at offset `i * B/64`. -/
def BloomFilter.get_block {α : Type} (f : BloomFilter α) (i : Nat) : List Nat :=
  (f.bits.drop (i * f.wpb)).take f.wpb

/-- Writing a block back into the word list: the functional image of the
in-place mutation through `get_block_mut` (spec §4.2). -/
def set_block (words : List Nat) (wpb i : Nat) (blk : List Nat) : List Nat :=
  words.take (i * wpb) ++ blk ++ words.drop (i * wpb + wpb)

/-- `insert` (src/src/lib.rs lines 300-314): derive `(h1, h2)`, select the
block from `h1`, run the sparse loop, then (when `num_rounds` is set) the
signature loop over the words of the same block, on the shared `h1` stream. -/
def BloomFilter.insert {α : Type} (f : BloomFilter α) (v : α) : BloomFilter α :=
  let hs := get_orginal_hashes f.hasher v
  let bi := block_index f.num_blocks hs.1
  let p := sparse_insert f.blockSizeBits hs.2 f.num_hashes hs.1 (f.get_block bi)
  let blk := match f.num_rounds with
    | none => p.2
    | some r => sig_insert hs.2 r p.1 p.2
  { f with bits := set_block f.bits f.wpb bi blk }

/-- The block index that `insert` and `contains` derive for item `v`
(src/src/lib.rs lines 302 and 330). -/
def BloomFilter.bi {α : Type} (f : BloomFilter α) (v : α) : Nat :=
  block_index f.num_blocks (get_orginal_hashes f.hasher v).1

/-- The contents of the selected block after `insert` runs its two loops on
it (the loop bodies of src/src/lib.rs lines 304-313). -/
def BloomFilter.insert_block {α : Type} (f : BloomFilter α) (v : α) :
    List Nat :=
  let hs := get_orginal_hashes f.hasher v
  let bi := block_index f.num_blocks hs.1
  let p := sparse_insert f.blockSizeBits hs.2 f.num_hashes hs.1 (f.get_block bi)
  match f.num_rounds with
  | none => p.2
  | some r => sig_insert hs.2 r p.1 p.2

/-- `contains` (src/src/lib.rs lines 328-342): the same derivation as
`insert`, with bit tests in place of bit sets and `& mask == mask` word tests
in place of `|= mask` word updates. -/
def BloomFilter.contains {α : Type} (f : BloomFilter α) (v : α) : Bool :=
  let hs := get_orginal_hashes f.hasher v
  let bi := block_index f.num_blocks hs.1
  let blk := f.get_block bi
  let p := sparse_check f.blockSizeBits hs.2 f.num_hashes hs.1 blk
  p.2 && (match f.num_rounds with
    | none => true
    | some r => sig_check hs.2 r p.1 blk)

/-- `Extend::extend` (src/src/lib.rs lines 378-388): loop `insert`. -/
def BloomFilter.insert_list {α : Type} (f : BloomFilter α) (vs : List α) :
    BloomFilter α :=
  vs.foldl BloomFilter.insert f

/-- `impl PartialEq for BloomFilter` (src/src/lib.rs lines 390-394):
`self.bits == other.bits && self.num_hashes == other.num_hashes`.
`BlockedBitVec` equality is elementwise word equality (modelled from the
spec §4.2; `bit_vector.rs` is not in src/). -/
def BloomFilter.eq {α : Type} (f g : BloomFilter α) : Bool :=
  f.bits == g.bits && f.num_hashes == g.num_hashes

/-- Rust `usize::div_ceil`. -/
def div_ceil (a b : Nat) : Nat := (a + b - 1) / b

/-- Modelled from the spec: `bit_vector.rs` is not in src/.  §4.2 `new`:
allocate `num_blocks × B/64` words zero-initialized; fails if `num_blocks = 0`. -/
def blocked_bit_vec_new (B num_blocks : Nat) : Option (List Nat) :=
  if num_blocks = 0 then none
  else some (List.replicate (num_blocks * (B / 64)) 0)

/-- `new_builder` (src/src/lib.rs lines 70-77): `assert!(num_bits > 0)`
(a failing assert is modelled as `none`), then
`BlockedBitVec::new(num_bits.div_ceil(B)).unwrap()`.  The result is the
builder's word data. -/
def new_builder (B num_bits : Nat) : Option (List Nat) :=
  if num_bits = 0 then none else blocked_bit_vec_new B (div_ceil num_bits B)

/-- `new_builder_from_vec` (src/src/lib.rs lines 79-87):
`assert!(!vec.is_empty())`, then `vec.into()`; the conversion pads the vector
with zero words up to a multiple of `B/64` (modelled from the spec §4.2
`from_words`; `bit_vector.rs` is not in src/). -/
def new_builder_from_vec (B : Nat) (v : List Nat) : Option (List Nat) :=
  if v = [] then none
  else some (v ++ List.replicate (div_ceil v.length (B / 64) * (B / 64) - v.length) 0)

/-- Modelled from the spec: `builder.rs` is not in src/.  §6: the builder
"Produces a Filter with computed (target_hashes, num_rounds, num_hashes)";
the built filter carries the builder's word data unchanged. -/
def mk_filter {α : Type} (B : Nat) (data : List Nat) (th : Nat)
    (nr : Option Nat) (nh : Nat) (hf : α → Nat) : BloomFilter α :=
  ⟨B, data, th, nr, nh, hf⟩

/-- Well-formedness of a constructed filter: a supported block size
(`BLOCK_SIZE_BITS ∈ {64, 128, 256, 512}`, src/src/lib.rs lines 113-255), a
word count that is a multiple of the block width, and a nonempty word vector
(both guaranteed by construction, spec §4.2). -/
def BloomFilter.WF {α : Type} (f : BloomFilter α) : Prop :=
  (f.blockSizeBits = 64 ∨ f.blockSizeBits = 128 ∨ f.blockSizeBits = 256 ∨
      f.blockSizeBits = 512) ∧
    f.wpb ∣ f.bits.length ∧ f.bits ≠ []

/-- `blockLe a b`: every bit set in the word list `a` is set in `b`
(elementwise `a[j] & b[j] = a[j]`), and the lists have the same length. -/
def blockLe (a b : List Nat) : Prop := List.Forall₂ (fun x y => x &&& y = x) a b

/-- A small concrete filter (block size 64, one block) used to instantiate
theorems with hypotheses at concrete inputs. -/
def exF : BloomFilter Nat :=
  ⟨64, [0], 3, some 2, 1, fun n => n * 0x9e3779b97f4a7c15⟩

/-- A concrete filter whose hasher maps everything to 0. -/
def cexF : BloomFilter Nat := ⟨64, [0], 1, none, 1, fun _ => 0⟩

/-- A concrete filter identical to `cexF` except for its hasher, which maps
everything to 1. -/
def cexG : BloomFilter Nat := ⟨64, [0], 1, none, 1, fun _ => 1⟩

/-! ## Word-level bit lemmas -/

theorem land_lor_self (a b : Nat) : a &&& (a ||| b) = a := by
  apply Nat.eq_of_testBit_eq
  intro i
  simp only [Nat.testBit_and, Nat.testBit_or]
  cases a.testBit i <;> simp

theorem lor_land_self (a b : Nat) : b &&& (a ||| b) = b := by
  apply Nat.eq_of_testBit_eq
  intro i
  simp only [Nat.testBit_and, Nat.testBit_or]
  cases a.testBit i <;> cases b.testBit i <;> simp

theorem land_sub_trans {a b c : Nat} (h1 : a &&& b = a) (h2 : b &&& c = b) :
    a &&& c = a := by
  apply Nat.eq_of_testBit_eq
  intro i
  have t1 := congrArg (fun x => x.testBit i) h1
  have t2 := congrArg (fun x => x.testBit i) h2
  simp only [Nat.testBit_and] at t1 t2 ⊢
  revert t1 t2
  cases a.testBit i <;> cases b.testBit i <;> cases c.testBit i <;> simp

theorem lor_absorb {a b : Nat} (h : a &&& b = a) : b ||| a = b := by
  apply Nat.eq_of_testBit_eq
  intro i
  have t := congrArg (fun x => x.testBit i) h
  simp only [Nat.testBit_and] at t
  simp only [Nat.testBit_or]
  revert t
  cases a.testBit i <;> cases b.testBit i <;> simp

theorem testBit_mono {a b : Nat} (h : a &&& b = a) {i : Nat}
    (ht : a.testBit i = true) : b.testBit i = true := by
  have t := congrArg (fun x => x.testBit i) h
  simp only [Nat.testBit_and] at t
  revert t
  rw [ht]
  cases b.testBit i <;> simp

theorem two_pow_land_of_testBit {w s : Nat} (h : w.testBit s = true) :
    1 <<< s &&& w = 1 <<< s := by
  rw [Nat.one_shiftLeft]
  apply Nat.eq_of_testBit_eq
  intro i
  simp only [Nat.testBit_and, Nat.testBit_two_pow]
  by_cases hi : s = i
  · subst hi
    simp [h]
  · simp [hi]

theorem check_iff_testBit (blk : List Nat) (off : Nat) :
    check_for_block blk off = true ↔
      (blk.getD (off / 64) 0).testBit (off % 64) = true := by
  unfold check_for_block
  rw [Nat.one_shiftLeft, bne_iff_ne]
  constructor
  · intro h
    by_contra hb
    simp only [Bool.not_eq_true] at hb
    apply h
    apply Nat.eq_of_testBit_eq
    intro i
    simp only [Nat.testBit_and, Nat.testBit_two_pow, Nat.zero_testBit]
    by_cases hi : off % 64 = i
    · rw [← hi, hb]
      simp
    · simp [hi]
  · intro h hz
    have := congrArg (fun x => x.testBit (off % 64)) hz
    simp only [Nat.testBit_and, Nat.testBit_two_pow, Nat.zero_testBit, h] at this
    simp at this

theorem check_mono {a b : List Nat} {off : Nat}
    (hle : ∀ j, a.getD j 0 &&& b.getD j 0 = a.getD j 0)
    (h : check_for_block a off = true) : check_for_block b off = true := by
  rw [check_iff_testBit] at h ⊢
  exact testBit_mono (hle (off / 64)) h

/-! ## Block-level lemmas: pointwise bit containment -/

theorem blockLe_refl (l : List Nat) : blockLe l l := by
  induction l with
  | nil => exact List.Forall₂.nil
  | cons w ws ih => exact List.Forall₂.cons (Nat.and_self w) ih

theorem blockLe_trans : ∀ {a b c : List Nat}, blockLe a b → blockLe b c →
    blockLe a c := by
  intro a b c hab
  induction hab generalizing c with
  | nil =>
    intro hbc
    cases hbc
    exact List.Forall₂.nil
  | cons h t ih =>
    intro hbc
    cases hbc with
    | cons h' t' => exact List.Forall₂.cons (land_sub_trans h h') (ih t')

theorem blockLe_length {a b : List Nat} (h : blockLe a b) :
    a.length = b.length := List.Forall₂.length_eq h

theorem blockLe_getD {a b : List Nat} (h : blockLe a b) (j : Nat) :
    a.getD j 0 &&& b.getD j 0 = a.getD j 0 := by
  induction h generalizing j with
  | nil => simp
  | cons hh ht ih =>
    cases j with
    | zero => simpa using hh
    | succ j => simpa using ih j

theorem blockLe_take {a b : List Nat} (h : blockLe a b) (n : Nat) :
    blockLe (a.take n) (b.take n) := by
  induction h generalizing n with
  | nil =>
    simp only [List.take_nil]
    exact List.Forall₂.nil
  | cons hh ht ih =>
    cases n with
    | zero => exact List.Forall₂.nil
    | succ n => exact List.Forall₂.cons hh (ih n)

theorem blockLe_drop {a b : List Nat} (h : blockLe a b) (n : Nat) :
    blockLe (a.drop n) (b.drop n) := by
  induction h generalizing n with
  | nil =>
    simp only [List.drop_nil]
    exact List.Forall₂.nil
  | cons hh ht ih =>
    cases n with
    | zero => exact List.Forall₂.cons hh ht
    | succ n => exact ih n

theorem list_set_getD_self : ∀ (l : List Nat) (j : Nat),
    l.set j (l.getD j 0) = l
  | [], _ => rfl
  | _ :: _, 0 => rfl
  | w :: ws, j + 1 => by
    simpa using congrArg (w :: ·) (list_set_getD_self ws j)

theorem blockLe_set_lor : ∀ (blk : List Nat) (j m : Nat),
    blockLe blk (blk.set j (blk.getD j 0 ||| m))
  | [], _, _ => List.Forall₂.nil
  | w :: ws, 0, m => List.Forall₂.cons (land_lor_self w m) (blockLe_refl ws)
  | w :: ws, j + 1, m => by
    have := List.Forall₂.cons (R := fun x y => x &&& y = x)
      (Nat.and_self w) (blockLe_set_lor ws j m)
    simpa [blockLe, List.getD_cons_succ] using this

theorem set_for_block_le (blk : List Nat) (off : Nat) :
    blockLe blk (set_for_block blk off) := blockLe_set_lor ..

theorem set_for_block_length (blk : List Nat) (off : Nat) :
    (set_for_block blk off).length = blk.length := List.length_set ..

theorem check_set_self (blk : List Nat) (off : Nat)
    (h : off / 64 < blk.length) :
    check_for_block (set_for_block blk off) off = true := by
  rw [check_iff_testBit]
  unfold set_for_block
  rw [List.getD_eq_getElem?_getD, List.getElem?_set_self (by simpa using h)]
  simp [Nat.one_shiftLeft, Nat.testBit_or, Nat.testBit_two_pow]

theorem set_for_block_absorb {blk : List Nat} {off : Nat}
    (h : check_for_block blk off = true) : set_for_block blk off = blk := by
  unfold set_for_block
  rw [check_iff_testBit] at h
  rw [lor_absorb (two_pow_land_of_testBit h), list_set_getD_self]


/-! ## Stream, length and containment lemmas for the two phases -/

theorem sparse_insert_fst (B h2 : Nat) : ∀ (n h1 : Nat) (blk : List Nat),
    (sparse_insert B h2 n h1 blk).1 = hIter h2 n h1
  | 0, _, _ => rfl
  | n + 1, h1, blk => sparse_insert_fst B h2 n (next_hash h1 h2) _

theorem sparse_check_fst (B h2 : Nat) : ∀ (n h1 : Nat) (blk : List Nat),
    (sparse_check B h2 n h1 blk).1 = hIter h2 n h1
  | 0, _, _ => rfl
  | n + 1, h1, blk => sparse_check_fst B h2 n (next_hash h1 h2) blk

theorem signature_fst (h2 : Nat) : ∀ (r h1 : Nat),
    (signature h2 h1 r).1 = hIter h2 r h1
  | 0, _ => rfl
  | r + 1, h1 => signature_fst h2 r (next_hash h1 h2)

theorem sparse_insert_length (B h2 : Nat) : ∀ (n h1 : Nat) (blk : List Nat),
    (sparse_insert B h2 n h1 blk).2.length = blk.length
  | 0, _, _ => rfl
  | n + 1, h1, blk => by
    rw [sparse_insert, sparse_insert_length B h2 n _ _, set_for_block_length]

theorem sig_insert_length (h2 r : Nat) : ∀ (h1 : Nat) (blk : List Nat),
    (sig_insert h2 r h1 blk).length = blk.length
  | _, [] => rfl
  | h1, w :: ws => by
    rw [sig_insert]
    simpa using sig_insert_length h2 r _ ws

theorem sparse_insert_le (B h2 : Nat) : ∀ (n h1 : Nat) (blk : List Nat),
    blockLe blk (sparse_insert B h2 n h1 blk).2
  | 0, _, blk => blockLe_refl blk
  | n + 1, h1, blk => by
    rw [sparse_insert]
    exact blockLe_trans (set_for_block_le blk _) (sparse_insert_le B h2 n _ _)

theorem sig_insert_le (h2 r : Nat) : ∀ (h1 : Nat) (blk : List Nat),
    blockLe blk (sig_insert h2 r h1 blk)
  | _, [] => List.Forall₂.nil
  | h1, w :: ws =>
    List.Forall₂.cons (land_lor_self w _) (sig_insert_le h2 r _ ws)

theorem sparse_check_mono (B h2 : Nat) : ∀ (n h1 : Nat) {a b : List Nat},
    blockLe a b → (sparse_check B h2 n h1 a).2 = true →
    (sparse_check B h2 n h1 b).2 = true
  | 0, _, _, _, _, _ => rfl
  | n + 1, h1, a, b, hle, h => by
    rw [sparse_check] at h ⊢
    simp only [Bool.and_eq_true] at h ⊢
    exact ⟨check_mono (blockLe_getD hle) h.1,
      sparse_check_mono B h2 n _ hle h.2⟩

theorem sig_check_mono (h2 r : Nat) : ∀ (h1 : Nat) {a b : List Nat},
    blockLe a b → sig_check h2 r h1 a = true → sig_check h2 r h1 b = true := by
  intro h1 a b hle
  induction hle generalizing h1 with
  | nil => intro _; rfl
  | cons hh ht ih =>
    intro h
    rw [sig_check] at h ⊢
    simp only [Bool.and_eq_true, beq_iff_eq] at h ⊢
    refine ⟨?_, ih _ h.2⟩
    have hm : _ &&& _ = _ := h.1
    rw [Nat.and_comm] at hm
    rw [Nat.and_comm]
    exact land_sub_trans hm hh

/-! ## Insert writes what contains reads -/

theorem sparse_check_correct (B h2 : Nat) : ∀ (n h1 : Nat)
    (blk C : List Nat), blk.length * 64 = B → 0 < blk.length →
    blockLe (sparse_insert B h2 n h1 blk).2 C →
    (sparse_check B h2 n h1 C).2 = true
  | 0, _, _, _, _, _, _ => rfl
  | n + 1, h1, blk, C, hB, hpos, hle => by
    rw [sparse_insert] at hle
    rw [sparse_check]
    simp only [Bool.and_eq_true]
    set h := next_hash h1 h2 with hh
    have hoff : (h &&& (B - 1)) / 64 < blk.length := by
      have h1le : h &&& (B - 1) ≤ B - 1 := Nat.and_le_right
      omega
    have hset : blockLe (set_for_block blk (h &&& (B - 1))) C :=
      blockLe_trans (sparse_insert_le B h2 n h _) hle
    refine ⟨?_, ?_⟩
    · exact check_mono (blockLe_getD hset) (check_set_self blk _ hoff)
    · exact sparse_check_correct B h2 n h (set_for_block blk _) C
        (by rw [set_for_block_length]; exact hB)
        (by rw [set_for_block_length]; exact hpos) hle

theorem sparse_insert_absorb (B h2 : Nat) : ∀ (n h1 : Nat)
    (blk C : List Nat), blk.length * 64 = B → 0 < blk.length →
    blockLe (sparse_insert B h2 n h1 blk).2 C →
    sparse_insert B h2 n h1 C = (hIter h2 n h1, C)
  | 0, h1, _, C, _, _, _ => rfl
  | n + 1, h1, blk, C, hB, hpos, hle => by
    rw [sparse_insert] at hle ⊢
    set h := next_hash h1 h2 with hh
    have hoff : (h &&& (B - 1)) / 64 < blk.length := by
      have h1le : h &&& (B - 1) ≤ B - 1 := Nat.and_le_right
      omega
    have hset : blockLe (set_for_block blk (h &&& (B - 1))) C :=
      blockLe_trans (sparse_insert_le B h2 n h _) hle
    have habs : set_for_block C (h &&& (B - 1)) = C :=
      set_for_block_absorb
        (check_mono (blockLe_getD hset) (check_set_self blk _ hoff))
    rw [habs]
    exact sparse_insert_absorb B h2 n h (set_for_block blk _) C
      (by rw [set_for_block_length]; exact hB)
      (by rw [set_for_block_length]; exact hpos) hle

theorem sig_check_correct (h2 r : Nat) : ∀ (h1 : Nat) {blk C : List Nat},
    blockLe (sig_insert h2 r h1 blk) C → sig_check h2 r h1 C = true := by
  intro h1 blk
  induction blk generalizing h1 with
  | nil =>
    intro C hle
    cases hle
    rfl
  | cons w ws ih =>
    intro C hle
    rw [sig_insert] at hle
    cases hle with
    | cons hh ht =>
      rw [sig_check]
      simp only [Bool.and_eq_true, beq_iff_eq]
      refine ⟨?_, ih _ ht⟩
      rw [Nat.and_comm]
      exact land_sub_trans (lor_land_self w _) hh

theorem sig_insert_absorb (h2 r : Nat) : ∀ (h1 : Nat) {blk C : List Nat},
    blockLe (sig_insert h2 r h1 blk) C → sig_insert h2 r h1 C = C := by
  intro h1 blk
  induction blk generalizing h1 with
  | nil =>
    intro C hle
    cases hle
    rfl
  | cons w ws ih =>
    intro C hle
    rw [sig_insert] at hle
    cases hle with
    | cons hh ht =>
      rw [sig_insert, ih _ ht]
      congr 1
      exact lor_absorb (land_sub_trans (lor_land_self w _) hh)

/-! ## Filter-level lemmas about insert and contains -/

theorem ext_filter {α : Type} {f g : BloomFilter α}
    (h1 : f.blockSizeBits = g.blockSizeBits) (h2 : f.bits = g.bits)
    (h3 : f.target_hashes = g.target_hashes) (h4 : f.num_rounds = g.num_rounds)
    (h5 : f.num_hashes = g.num_hashes) (h6 : f.hasher = g.hasher) : f = g := by
  cases f
  cases g
  simp_all

theorem insert_bits_eq {α : Type} (f : BloomFilter α) (v : α) :
    (f.insert v).bits = set_block f.bits f.wpb (f.bi v) (f.insert_block v) :=
  rfl

theorem insert_blockSizeBits {α : Type} (f : BloomFilter α) (v : α) :
    (f.insert v).blockSizeBits = f.blockSizeBits := rfl

theorem insert_target_hashes {α : Type} (f : BloomFilter α) (v : α) :
    (f.insert v).target_hashes = f.target_hashes := rfl

theorem insert_num_rounds {α : Type} (f : BloomFilter α) (v : α) :
    (f.insert v).num_rounds = f.num_rounds := rfl

theorem insert_num_hashes {α : Type} (f : BloomFilter α) (v : α) :
    (f.insert v).num_hashes = f.num_hashes := rfl

theorem insert_hasher {α : Type} (f : BloomFilter α) (v : α) :
    (f.insert v).hasher = f.hasher := rfl

theorem insert_block_length {α : Type} (f : BloomFilter α) (v : α) :
    (f.insert_block v).length = (f.get_block (f.bi v)).length := by
  unfold BloomFilter.insert_block
  cases f.num_rounds with
  | none => exact sparse_insert_length ..
  | some r => rw [sig_insert_length]; exact sparse_insert_length ..

theorem insert_block_le {α : Type} (f : BloomFilter α) (v : α) :
    blockLe (f.get_block (f.bi v)) (f.insert_block v) := by
  unfold BloomFilter.insert_block
  cases f.num_rounds with
  | none => exact sparse_insert_le ..
  | some r => exact blockLe_trans (sparse_insert_le ..) (sig_insert_le ..)

theorem set_block_length {l : List Nat} {wpb i : Nat} {blk : List Nat}
    (h : blk.length = ((l.drop (i * wpb)).take wpb).length) :
    (set_block l wpb i blk).length = l.length := by
  simp only [List.length_take, List.length_drop] at h
  simp only [set_block, List.length_append, List.length_take, List.length_drop]
  omega

theorem insert_bits_length {α : Type} (f : BloomFilter α) (v : α) :
    (f.insert v).bits.length = f.bits.length := by
  rw [insert_bits_eq]
  exact set_block_length (insert_block_length f v)

theorem insert_num_blocks {α : Type} (f : BloomFilter α) (v : α) :
    (f.insert v).num_blocks = f.num_blocks := by
  show (f.insert v).bits.length / (f.insert v).wpb = _
  rw [insert_bits_length]
  rfl

theorem insert_bi {α : Type} (f : BloomFilter α) (v w : α) :
    (f.insert v).bi w = f.bi w := by
  unfold BloomFilter.bi
  rw [insert_num_blocks]
  rfl

theorem insert_WF {α : Type} (f : BloomFilter α) (v : α) (h : f.WF) :
    (f.insert v).WF := by
  obtain ⟨hb, hd, hne⟩ := h
  refine ⟨hb, ?_, ?_⟩
  · show (f.insert v).wpb ∣ (f.insert v).bits.length
    rw [insert_bits_length]
    exact hd
  · have := insert_bits_length f v
    have hpos : 0 < f.bits.length := List.length_pos.mpr hne
    intro hnil
    rw [hnil] at this
    simp at this
    omega

theorem words_decomp (l : List Nat) (k wpb : Nat) :
    l = l.take k ++ ((l.drop k).take wpb ++ l.drop (k + wpb)) := by
  conv_lhs => rw [← List.take_append_drop k l]
  congr 1
  conv_lhs => rw [← List.take_append_drop wpb (l.drop k)]
  rw [List.drop_drop]

theorem blockLe_append {a b c d : List Nat} (h1 : blockLe a b)
    (h2 : blockLe c d) : blockLe (a ++ c) (b ++ d) := by
  unfold blockLe at h1 h2 ⊢
  exact List.rel_append h1 h2

theorem insert_bits_le {α : Type} (f : BloomFilter α) (v : α) :
    blockLe f.bits (f.insert v).bits := by
  rw [insert_bits_eq]
  unfold set_block
  conv_lhs => rw [words_decomp f.bits (f.bi v * f.wpb) f.wpb]
  rw [List.append_assoc]
  exact blockLe_append (blockLe_refl _)
    (blockLe_append (insert_block_le f v) (blockLe_refl _))

theorem contains_eq {α : Type} (f : BloomFilter α) (v : α) :
    f.contains v =
      ((sparse_check f.blockSizeBits (get_orginal_hashes f.hasher v).2
            f.num_hashes (get_orginal_hashes f.hasher v).1
            (f.get_block (f.bi v))).2 &&
        match f.num_rounds with
        | none => true
        | some r =>
          sig_check (get_orginal_hashes f.hasher v).2 r
            (hIter (get_orginal_hashes f.hasher v).2 f.num_hashes
              (get_orginal_hashes f.hasher v).1)
            (f.get_block (f.bi v))) := by
  unfold BloomFilter.contains BloomFilter.bi
  cases f.num_rounds <;> simp [sparse_check_fst]

theorem contains_mono {α : Type} {f g : BloomFilter α}
    (hB : g.blockSizeBits = f.blockSizeBits)
    (hnr : g.num_rounds = f.num_rounds) (hnh : g.num_hashes = f.num_hashes)
    (hh : g.hasher = f.hasher) (hle : blockLe f.bits g.bits) (v : α)
    (hc : f.contains v = true) : g.contains v = true := by
  have hlen : f.bits.length = g.bits.length := blockLe_length hle
  have hwpb : g.wpb = f.wpb := by
    unfold BloomFilter.wpb
    rw [hB]
  have hnb : g.num_blocks = f.num_blocks := by
    unfold BloomFilter.num_blocks
    rw [hwpb, ← hlen]
  have hbi : g.bi v = f.bi v := by
    unfold BloomFilter.bi
    rw [hnb, hh]
  have hblk : blockLe (f.get_block (f.bi v)) (g.get_block (g.bi v)) := by
    unfold BloomFilter.get_block
    rw [hbi, hwpb]
    exact blockLe_take (blockLe_drop hle _) _
  rw [contains_eq] at hc ⊢
  rw [hB, hnr, hnh, hh]
  cases hfr : f.num_rounds with
  | none =>
    rw [hfr] at hc
    simp only [Bool.and_eq_true] at hc ⊢
    exact ⟨sparse_check_mono _ _ _ _ hblk hc.1, trivial⟩
  | some r =>
    rw [hfr] at hc
    simp only [Bool.and_eq_true] at hc ⊢
    exact ⟨sparse_check_mono _ _ _ _ hblk hc.1, sig_check_mono _ _ _ hblk hc.2⟩

theorem get_orginal_hashes_fst_lt {α : Type} (hasher : α → Nat) (v : α) :
    (get_orginal_hashes hasher v).1 < U64 :=
  Nat.mod_lt _ (Nat.pos_pow_of_pos 64 (by norm_num))

theorem block_index_lt {nb h : Nat} (hnb : 0 < nb) (hh : h < U64) :
    block_index nb h < nb := by
  unfold block_index U64 at *
  rw [Nat.shiftRight_eq_div_pow, Nat.shiftRight_eq_div_pow]
  have ha : h / 2 ^ 32 < 2 ^ 32 := by
    apply Nat.div_lt_of_lt_mul
    calc h < 2 ^ 64 := hh
    _ = 2 ^ 32 * 2 ^ 32 := by norm_num
  by_cases hc : h / 2 ^ 32 * nb < 2 ^ 64
  · rw [Nat.mod_eq_of_lt hc]
    exact Nat.div_lt_of_lt_mul ((Nat.mul_lt_mul_right hnb).mpr ha)
  · push_neg at hc
    have hnb32 : 2 ^ 32 < nb := by
      by_contra hle
      push_neg at hle
      have : h / 2 ^ 32 * nb < 2 ^ 32 * nb :=
        (Nat.mul_lt_mul_right hnb).mpr ha
      have h2 : 2 ^ 32 * nb ≤ 2 ^ 32 * 2 ^ 32 := Nat.mul_le_mul_left _ hle
      have : h / 2 ^ 32 * nb < 2 ^ 64 := by
        calc h / 2 ^ 32 * nb < 2 ^ 32 * nb := this
        _ ≤ 2 ^ 32 * 2 ^ 32 := h2
        _ = 2 ^ 64 := by norm_num
      omega
    have hm : h / 2 ^ 32 * nb % 2 ^ 64 < 2 ^ 64 := Nat.mod_lt _ (by norm_num)
    have : h / 2 ^ 32 * nb % 2 ^ 64 / 2 ^ 32 < 2 ^ 32 := by
      apply Nat.div_lt_of_lt_mul
      calc h / 2 ^ 32 * nb % 2 ^ 64 < 2 ^ 64 := hm
      _ = 2 ^ 32 * 2 ^ 32 := by norm_num
    omega

/-! ## Well-formedness facts -/

theorem wf_wpb_pos {α : Type} {f : BloomFilter α} (h : f.WF) : 0 < f.wpb := by
  obtain ⟨hb, -, -⟩ := h
  rcases hb with h' | h' | h' | h' <;> simp [BloomFilter.wpb, h']

theorem wf_wpb64 {α : Type} {f : BloomFilter α} (h : f.WF) :
    f.wpb * 64 = f.blockSizeBits := by
  obtain ⟨hb, -, -⟩ := h
  rcases hb with h' | h' | h' | h' <;> simp [BloomFilter.wpb, h']

theorem wf_num_blocks_pos {α : Type} {f : BloomFilter α} (h : f.WF) :
    0 < f.num_blocks := by
  obtain ⟨hb, hd, hne⟩ := h
  have hw : 0 < f.wpb := wf_wpb_pos ⟨hb, hd, hne⟩
  have hL : 0 < f.bits.length := List.length_pos.mpr hne
  exact Nat.div_pos (Nat.le_of_dvd hL hd) hw

theorem wf_bi_lt {α : Type} {f : BloomFilter α} (h : f.WF) (v : α) :
    f.bi v < f.num_blocks := by
  unfold BloomFilter.bi
  exact block_index_lt (wf_num_blocks_pos h) (get_orginal_hashes_fst_lt _ v)

theorem wf_range {α : Type} {f : BloomFilter α} (h : f.WF) (v : α) :
    f.bi v * f.wpb + f.wpb ≤ f.bits.length := by
  have hbi := wf_bi_lt h v
  obtain ⟨hb, hd, hne⟩ := h
  have hmul : f.num_blocks * f.wpb = f.bits.length := Nat.div_mul_cancel hd
  have h2 : (f.bi v + 1) * f.wpb ≤ f.num_blocks * f.wpb :=
    Nat.mul_le_mul_right _ hbi
  rw [hmul, Nat.succ_mul] at h2
  exact h2

theorem wf_get_block_length {α : Type} {f : BloomFilter α} (h : f.WF) (v : α) :
    (f.get_block (f.bi v)).length = f.wpb := by
  have := wf_range h v
  unfold BloomFilter.get_block
  simp only [List.length_take, List.length_drop]
  omega

/-! ## The block written by insert is the block read back -/

theorem insert_wpb {α : Type} (f : BloomFilter α) (v : α) :
    (f.insert v).wpb = f.wpb := rfl

theorem get_block_set_block (l : List Nat) (wpb i : Nat) (blk : List Nat)
    (hk : i * wpb + wpb ≤ l.length) (hb : blk.length = wpb) :
    ((set_block l wpb i blk).drop (i * wpb)).take wpb = blk := by
  unfold set_block
  rw [List.append_assoc]
  rw [List.drop_left' (by rw [List.length_take]; omega)]
  exact List.take_left' hb

theorem insert_get_block {α : Type} (f : BloomFilter α) (v : α) (h : f.WF) :
    (f.insert v).get_block (f.bi v) = f.insert_block v := by
  unfold BloomFilter.get_block
  rw [insert_wpb, insert_bits_eq]
  exact get_block_set_block _ _ _ _ (wf_range h v)
    ((insert_block_length f v).trans (wf_get_block_length h v))

theorem insert_block_eq_pipeline {α : Type} (f : BloomFilter α) (v : α) :
    f.insert_block v =
      (match f.num_rounds with
        | none =>
          (sparse_insert f.blockSizeBits (get_orginal_hashes f.hasher v).2
            f.num_hashes (get_orginal_hashes f.hasher v).1
            (f.get_block (f.bi v))).2
        | some r =>
          sig_insert (get_orginal_hashes f.hasher v).2 r
            (hIter (get_orginal_hashes f.hasher v).2 f.num_hashes
              (get_orginal_hashes f.hasher v).1)
            (sparse_insert f.blockSizeBits (get_orginal_hashes f.hasher v).2
              f.num_hashes (get_orginal_hashes f.hasher v).1
              (f.get_block (f.bi v))).2) := by
  unfold BloomFilter.insert_block BloomFilter.bi
  cases f.num_rounds <;> simp [sparse_insert_fst]

theorem contains_insert_self {α : Type} (f : BloomFilter α) (v : α)
    (hwf : f.WF) : (f.insert v).contains v = true := by
  have hB : (f.get_block (f.bi v)).length * 64 = f.blockSizeBits := by
    rw [wf_get_block_length hwf v]
    exact wf_wpb64 hwf
  have hpos : 0 < (f.get_block (f.bi v)).length := by
    rw [wf_get_block_length hwf v]
    exact wf_wpb_pos hwf
  rw [contains_eq]
  rw [insert_bi, insert_get_block f v hwf, insert_blockSizeBits,
    insert_num_hashes, insert_num_rounds, insert_hasher]
  rw [insert_block_eq_pipeline f v]
  cases hfr : f.num_rounds with
  | none =>
    simp only [Bool.and_true]
    exact sparse_check_correct _ _ _ _ _ _ hB hpos (blockLe_refl _)
  | some r =>
    simp only [Bool.and_eq_true]
    exact ⟨sparse_check_correct _ _ _ _ _ _ hB hpos (sig_insert_le ..),
      sig_check_correct _ _ _ (blockLe_refl _)⟩

/-! ## Extend / insert sequences -/

theorem insert_list_nil {α : Type} (f : BloomFilter α) : f.insert_list [] = f :=
  rfl

theorem insert_list_cons {α : Type} (f : BloomFilter α) (v : α) (vs : List α) :
    f.insert_list (v :: vs) = (f.insert v).insert_list vs := rfl

theorem contains_insert_list_pres {α : Type} (f : BloomFilter α) (x : α)
    (vs : List α) (hc : f.contains x = true) :
    (f.insert_list vs).contains x = true := by
  induction vs generalizing f with
  | nil => exact hc
  | cons y ys ih =>
    rw [insert_list_cons]
    exact ih _ (contains_mono (f := f) (g := f.insert y) rfl rfl rfl rfl
      (insert_bits_le f y) x hc)

theorem insert_list_WF {α : Type} (f : BloomFilter α) (vs : List α)
    (h : f.WF) : (f.insert_list vs).WF := by
  induction vs generalizing f with
  | nil => exact h
  | cons y ys ih => exact ih _ (insert_WF f y h)

/-! ## Inserting the same item twice -/

theorem insert_insert_block {α : Type} (f : BloomFilter α) (v : α)
    (hwf : f.WF) : (f.insert v).insert_block v = f.insert_block v := by
  have hg : (f.insert v).get_block ((f.insert v).bi v) = f.insert_block v := by
    rw [insert_bi]
    exact insert_get_block f v hwf
  have hB : (f.get_block (f.bi v)).length * 64 = f.blockSizeBits := by
    rw [wf_get_block_length hwf v]
    exact wf_wpb64 hwf
  have hpos : 0 < (f.get_block (f.bi v)).length := by
    rw [wf_get_block_length hwf v]
    exact wf_wpb_pos hwf
  rw [insert_block_eq_pipeline (f.insert v) v]
  rw [hg, insert_blockSizeBits, insert_num_hashes, insert_num_rounds,
    insert_hasher]
  have hch := insert_block_eq_pipeline f v
  cases hfr : f.num_rounds with
  | none =>
    rw [hfr] at hch
    have habs := sparse_insert_absorb f.blockSizeBits
      (get_orginal_hashes f.hasher v).2 f.num_hashes
      (get_orginal_hashes f.hasher v).1 (f.get_block (f.bi v))
      (f.insert_block v) hB hpos (by rw [hch]; exact blockLe_refl _)
    rw [habs]
  | some r =>
    rw [hfr] at hch
    have habs := sparse_insert_absorb f.blockSizeBits
      (get_orginal_hashes f.hasher v).2 f.num_hashes
      (get_orginal_hashes f.hasher v).1 (f.get_block (f.bi v))
      (f.insert_block v) hB hpos (by rw [hch]; exact sig_insert_le ..)
    rw [habs]
    have := @sig_insert_absorb (get_orginal_hashes f.hasher v).2 r
      (hIter (get_orginal_hashes f.hasher v).2 f.num_hashes
        (get_orginal_hashes f.hasher v).1)
      ((sparse_insert f.blockSizeBits (get_orginal_hashes f.hasher v).2
        f.num_hashes (get_orginal_hashes f.hasher v).1
        (f.get_block (f.bi v))).2)
      (f.insert_block v) (by rw [hch]; exact blockLe_refl _)
    exact this

theorem set_block_idem (l : List Nat) (wpb i : Nat) (blk : List Nat)
    (hk : i * wpb + wpb ≤ l.length) (hb : blk.length = wpb) :
    set_block (set_block l wpb i blk) wpb i blk = set_block l wpb i blk := by
  have h1 : (set_block l wpb i blk).take (i * wpb) = l.take (i * wpb) := by
    unfold set_block
    rw [List.append_assoc]
    exact List.take_left' (by rw [List.length_take]; omega)
  have h2 : (set_block l wpb i blk).drop (i * wpb + wpb) =
      l.drop (i * wpb + wpb) := by
    unfold set_block
    exact List.drop_left'
      (by simp only [List.length_append, List.length_take]; omega)
  have e : ∀ m : List Nat,
      set_block m wpb i blk = m.take (i * wpb) ++ blk ++ m.drop (i * wpb + wpb) :=
    fun _ => rfl
  rw [e (set_block l wpb i blk), h1, h2, ← e l]

theorem insert_idem {α : Type} (f : BloomFilter α) (v : α) (hwf : f.WF) :
    (f.insert v).insert v = f.insert v := by
  apply ext_filter
  · rfl
  · rw [insert_bits_eq (f.insert v) v, insert_bi, insert_wpb,
      insert_insert_block f v hwf, insert_bits_eq f v]
    exact set_block_idem _ _ _ _ (wf_range hwf v)
      ((insert_block_length f v).trans (wf_get_block_length hwf v))
  · rfl
  · rfl
  · rfl
  · rfl

/-! ## Frame: a single insert touches only the selected block -/

theorem set_block_getD_lt (l : List Nat) (wpb i : Nat) (blk : List Nat)
    (j : Nat) (hj : j < i * wpb) (hk : i * wpb ≤ l.length) :
    (set_block l wpb i blk).getD j 0 = l.getD j 0 := by
  unfold set_block
  have hlen : (l.take (i * wpb)).length = i * wpb := by
    rw [List.length_take, Nat.min_eq_left hk]
  rw [List.getD_eq_getElem?_getD, List.getD_eq_getElem?_getD,
    List.append_assoc, List.getElem?_append, hlen]
  rw [if_pos hj]
  rw [List.getElem?_take, if_pos hj]

theorem set_block_getD_ge (l : List Nat) (wpb i : Nat) (blk : List Nat)
    (j : Nat) (hj : i * wpb + wpb ≤ j) (hk : i * wpb + wpb ≤ l.length)
    (hb : blk.length = wpb) :
    (set_block l wpb i blk).getD j 0 = l.getD j 0 := by
  unfold set_block
  have hlen : (l.take (i * wpb) ++ blk).length = i * wpb + wpb := by
    rw [List.length_append, List.length_take, Nat.min_eq_left (by omega), hb]
  rw [List.getD_eq_getElem?_getD, List.getD_eq_getElem?_getD,
    List.getElem?_append, hlen]
  rw [if_neg (by omega)]
  rw [List.getElem?_drop]
  have hidx : i * wpb + wpb + (j - (i * wpb + wpb)) = j := by omega
  rw [hidx]

/-! ## Builder constructions -/

theorem le_div_ceil_mul (a b : Nat) (hb : 0 < b) : a ≤ div_ceil a b * b := by
  unfold div_ceil
  have h1 := Nat.div_add_mod (a + b - 1) b
  have h2 := Nat.mod_lt (a + b - 1) hb
  rw [Nat.mul_comm] at h1
  omega

theorem div_ceil_pos {a b : Nat} (hb : 0 < b) (ha : 0 < a) :
    0 < div_ceil a b := by
  unfold div_ceil
  exact Nat.div_pos (by omega) hb

theorem new_builder_eq (B n : Nat) (hB : 0 < B) (hn : 0 < n) :
    new_builder B n = some (List.replicate (div_ceil n B * (B / 64)) 0) := by
  unfold new_builder blocked_bit_vec_new
  rw [if_neg (by omega)]
  rw [if_neg (by have := div_ceil_pos hB hn; omega)]

theorem new_builder_isSome (B n : Nat) (hB : 0 < B) :
    (new_builder B n).isSome = true ↔ 0 < n := by
  constructor
  · intro h
    by_contra hn
    have hn0 : n = 0 := by omega
    unfold new_builder at h
    rw [if_pos hn0] at h
    simp at h
  · intro hn
    rw [new_builder_eq B n hB hn]
    rfl

theorem new_builder_from_vec_eq (B : Nat) (v : List Nat) (hv : v ≠ []) :
    new_builder_from_vec B v =
      some (v ++ List.replicate
        (div_ceil v.length (B / 64) * (B / 64) - v.length) 0) := by
  unfold new_builder_from_vec
  rw [if_neg hv]

theorem new_builder_from_vec_isSome (B : Nat) (v : List Nat) :
    (new_builder_from_vec B v).isSome = true ↔ v ≠ [] := by
  unfold new_builder_from_vec
  by_cases h : v = [] <;> simp [h]

theorem mk_filter_bits {α : Type} (B : Nat) (data : List Nat) (th : Nat)
    (nr : Option Nat) (nh : Nat) (hf : α → Nat) :
    (mk_filter B data th nr nh hf).bits = data := rfl

theorem mk_filter_wpb {α : Type} (B : Nat) (data : List Nat) (th : Nat)
    (nr : Option Nat) (nh : Nat) (hf : α → Nat) :
    (mk_filter B data th nr nh hf).wpb = B / 64 := rfl

theorem supported_block_size {B : Nat}
    (hB : B = 64 ∨ B = 128 ∨ B = 256 ∨ B = 512) :
    0 < B / 64 ∧ B / 64 * 64 = B ∧ 0 < B := by
  rcases hB with h | h | h | h <;> subst h <;> norm_num

theorem mk_filter_new_builder_WF {α : Type} (B n : Nat)
    (hB : B = 64 ∨ B = 128 ∨ B = 256 ∨ B = 512) (hn : 0 < n)
    (ws : List Nat) (hws : new_builder B n = some ws) (th : Nat)
    (nr : Option Nat) (nh : Nat) (hf : α → Nat) :
    (mk_filter B ws th nr nh hf).WF := by
  obtain ⟨hw, -, hBpos⟩ := supported_block_size hB
  rw [new_builder_eq B n hBpos hn] at hws
  have hws' : ws = List.replicate (div_ceil n B * (B / 64)) 0 :=
    (Option.some.injEq .. ▸ hws).symm
  refine ⟨hB, ?_, ?_⟩
  · rw [mk_filter_wpb]
    show B / 64 ∣ (mk_filter B ws th nr nh hf).bits.length
    rw [mk_filter_bits, hws', List.length_replicate]
    exact dvd_mul_left (B / 64) (div_ceil n B)
  · show ws ≠ []
    rw [hws']
    have hq : 0 < div_ceil n B := div_ceil_pos hBpos hn
    intro hnil
    have := congrArg List.length hnil
    rw [List.length_replicate] at this
    simp at this
    rcases this with h | h <;> omega

theorem mk_filter_from_vec_WF {α : Type} (B : Nat)
    (hB : B = 64 ∨ B = 128 ∨ B = 256 ∨ B = 512) (v : List Nat) (hv : v ≠ [])
    (ws : List Nat) (hws : new_builder_from_vec B v = some ws) (th : Nat)
    (nr : Option Nat) (nh : Nat) (hf : α → Nat) :
    (mk_filter B ws th nr nh hf).WF := by
  obtain ⟨hw, -, -⟩ := supported_block_size hB
  rw [new_builder_from_vec_eq B v hv] at hws
  have hws' : ws = v ++ List.replicate
      (div_ceil v.length (B / 64) * (B / 64) - v.length) 0 :=
    (Option.some.injEq .. ▸ hws).symm
  have hvlen : 0 < v.length := List.length_pos.mpr hv
  have hle : v.length ≤ div_ceil v.length (B / 64) * (B / 64) :=
    le_div_ceil_mul _ _ hw
  refine ⟨hB, ?_, ?_⟩
  · rw [mk_filter_wpb]
    show B / 64 ∣ (mk_filter B ws th nr nh hf).bits.length
    rw [mk_filter_bits, hws']
    simp only [List.length_append, List.length_replicate]
    have : v.length + (div_ceil v.length (B / 64) * (B / 64) - v.length) =
        div_ceil v.length (B / 64) * (B / 64) := by omega
    rw [this]
    exact dvd_mul_left (B / 64) (div_ceil v.length (B / 64))
  · show ws ≠ []
    rw [hws']
    intro hnil
    have := congrArg List.length hnil
    simp only [List.length_append, List.length_replicate, List.length_nil] at this
    omega

/-! ## The rotate-left-by-5 stepper -/

theorem rotateLeft5_testBit (x : Nat) (hx : x < U64) (i : Nat) (hi : i < 64) :
    (rotateLeft5 x).testBit i = x.testBit ((i + 59) % 64) := by
  unfold rotateLeft5 U64 at *
  simp only [Nat.testBit_or, Nat.testBit_mod_two_pow, Nat.testBit_shiftLeft,
    Nat.testBit_shiftRight]
  by_cases h5 : 5 ≤ i
  · have hmod : (i + 59) % 64 = i - 5 := by omega
    have hbig : x.testBit (59 + i) = false :=
      Nat.testBit_lt_two_pow (by
        calc x < 2 ^ 64 := hx
        _ ≤ 2 ^ (59 + i) := Nat.pow_le_pow_right (by norm_num) (by omega))
    rw [hmod, hbig]
    simp [h5, hi]
  · have hmod : (i + 59) % 64 = i + 59 := by omega
    rw [hmod]
    simp [h5, hi, Nat.add_comm]

theorem rotateLeft5_lt (x : Nat) (hx : x < U64) : rotateLeft5 x < U64 := by
  unfold rotateLeft5 U64 at *
  apply Nat.or_lt_two_pow
  · exact Nat.mod_lt _ (by norm_num)
  · rw [Nat.shiftRight_eq_div_pow]
    have h := Nat.div_le_self x (2 ^ 59)
    omega

theorem insert_list_reported {α : Type} (f : BloomFilter α) (xs : List α) :
    (f.insert_list xs).reported_num_hashes = f.reported_num_hashes := by
  induction xs generalizing f with
  | nil => rfl
  | cons y ys ih =>
    rw [insert_list_cons]
    exact ih (f.insert y)

/-! ## Claims -/

/-- C1: No false negatives: for every well-formed filter (any supported block
size in {64, 128, 256, 512}, any hasher, any `num_hashes`/`num_rounds`) and
every sequence of items inserted via `insert`, `contains` returns `true` on
every item of the sequence — `contains` re-derives the same seeds, block
index and positions in the same order as `insert` did. -/
theorem C1_no_false_negatives {α : Type} (f : BloomFilter α) (hwf : f.WF)
    (xs : List α) (x : α) (hx : x ∈ xs) :
    (f.insert_list xs).contains x = true := by
  induction xs generalizing f with
  | nil => cases hx
  | cons y ys ih =>
    rw [insert_list_cons]
    rcases List.mem_cons.mp hx with rfl | hmem
    · exact contains_insert_list_pres _ _ _ (contains_insert_self f x hwf)
    · exact ih (f.insert y) (insert_WF f y hwf) hmem

/-- Witness for C1 at a concrete filter and insert sequence. -/
theorem C1_witness :
    exF.WF ∧ (exF.insert_list [5, 9]).contains 5 = true ∧
      (exF.insert_list [5, 9]).contains 9 = true := by
  have hwf : exF.WF := ⟨Or.inl rfl, by decide, by decide⟩
  exact ⟨hwf, C1_no_false_negatives exF hwf [5, 9] 5 (by simp),
    C1_no_false_negatives exF hwf [5, 9] 9 (by simp)⟩

/-- C2 counterexample: two filters with different hasher configurations but
identical backing words and `num_hashes` field compare equal under the code's
`==`, refuting "equality returns true only if the hasher configurations
agree". -/
theorem C2_counterexample :
    BloomFilter.eq cexF cexG = true ∧ cexF.hasher ≠ cexG.hasher := by
  refine ⟨rfl, fun h => ?_⟩
  have := congrFun h 0
  simp [cexF, cexG] at this

/-- C2 (amended): `==` returns true iff the backing word sequences are
elementwise equal and the `num_hashes` fields are equal; the hasher
configuration is not compared. -/
theorem C2_eq_iff {α : Type} (f g : BloomFilter α) :
    BloomFilter.eq f g = true ↔
      f.bits = g.bits ∧ f.num_hashes = g.num_hashes := by
  unfold BloomFilter.eq
  simp [Bool.and_eq_true]

/-- C3: inserts are monotonic: every word after an insert contains every bit
it had before (`old AND new = old`), and consequently `contains` stays true
under any further insert sequence. -/
theorem C3_insert_monotone {α : Type} (f : BloomFilter α) (v : α) :
    (blockLe f.bits (f.insert v).bits ∧
      ∀ j, f.bits.getD j 0 &&& (f.insert v).bits.getD j 0 = f.bits.getD j 0) ∧
    ∀ (x : α) (ys : List α), f.contains x = true →
      (f.insert_list ys).contains x = true := by
  refine ⟨⟨insert_bits_le f v, fun j => blockLe_getD (insert_bits_le f v) j⟩,
    fun x ys hc => contains_insert_list_pres f x ys hc⟩

/-- Witness for C3: a concrete contained item stays contained. -/
theorem C3_witness :
    (exF.insert 5).contains 5 = true ∧
      ((exF.insert 5).insert_list [7, 8]).contains 5 = true := by
  have h : (exF.insert 5).contains 5 = true := by decide
  exact ⟨h, (C3_insert_monotone (exF.insert 5) 0).2 5 [7, 8] h⟩

/-- C4: a single insert touches only the selected block: every word outside
the block chosen by `block_index` is unchanged, and all filter parameters
(and the reporters built from them) are unchanged. -/
theorem C4_insert_frame {α : Type} (f : BloomFilter α) (v : α) (hwf : f.WF) :
    (∀ j, (j < f.bi v * f.wpb ∨ f.bi v * f.wpb + f.wpb ≤ j) →
      (f.insert v).bits.getD j 0 = f.bits.getD j 0) ∧
    (f.insert v).target_hashes = f.target_hashes ∧
    (f.insert v).num_rounds = f.num_rounds ∧
    (f.insert v).num_hashes = f.num_hashes ∧
    (f.insert v).hasher = f.hasher ∧
    (f.insert v).reported_num_hashes = f.reported_num_hashes ∧
    (f.insert v).num_bits = f.num_bits ∧
    (f.insert v).num_blocks = f.num_blocks := by
  have hrange := wf_range hwf v
  have hblen := (insert_block_length f v).trans (wf_get_block_length hwf v)
  refine ⟨?_, rfl, rfl, rfl, rfl, rfl, ?_, insert_num_blocks f v⟩
  · intro j hj
    rw [insert_bits_eq]
    rcases hj with hj | hj
    · exact set_block_getD_lt _ _ _ _ _ hj (by omega)
    · exact set_block_getD_ge _ _ _ _ _ hj hrange hblen
  · show (f.insert v).num_blocks * (f.insert v).blockSizeBits = _
    rw [insert_num_blocks]
    rfl

/-- Witness for C4 at a concrete filter: the word at an index outside the
single block is untouched and the shape reporters are unchanged. -/
theorem C4_witness :
    exF.WF ∧ (exF.insert 5).bits.getD 3 0 = exF.bits.getD 3 0 ∧
      (exF.insert 5).num_blocks = exF.num_blocks := by
  have hwf : exF.WF := ⟨Or.inl rfl, by decide, by decide⟩
  have h := C4_insert_frame exF 5 hwf
  exact ⟨hwf, h.1 3 (Or.inr (by decide)), h.2.2.2.2.2.2.2⟩

/-- C5: `block_index` computes `((h1 >> 32) * num_blocks) >> 32` (with the
64-bit wrap of `usize` multiplication) and its result is in
`[0, num_blocks)` for every `num_blocks ≥ 1` and every 64-bit hash. -/
theorem C5_block_index (nb h : Nat) :
    block_index nb h = ((h >>> 32) * nb % U64) >>> 32 ∧
      (0 < nb → h < U64 → block_index nb h < nb) :=
  ⟨rfl, fun hnb hh => block_index_lt hnb hh⟩

/-- Witness for C5 at the largest 64-bit hash. -/
theorem C5_witness : block_index 5 (U64 - 1) < 5 :=
  (C5_block_index 5 (U64 - 1)).2 (by norm_num) (by norm_num [U64])

/-- C6: construction from a bit count fails exactly when 0 bits are
requested; construction from a word vector fails exactly when the vector is
empty; the runtime operations only ever index in range on well-formed
filters (the block index is below `num_blocks`, every derived bit offset is
below the block size and its word index below the words-per-block), insert
preserves well-formedness, and both builders produce well-formed filters —
so `insert`, `contains`, `num_hashes`, `num_bits`, `num_blocks` and
`as_slice` (all total functions here) never hit an out-of-range access. -/
theorem C6_failure_semantics {α : Type} :
    (∀ B n : Nat, 0 < B → ((new_builder B n).isSome = true ↔ 0 < n)) ∧
    (∀ (B : Nat) (v : List Nat),
      (new_builder_from_vec B v).isSome = true ↔ v ≠ []) ∧
    (∀ f : BloomFilter α, f.WF → ∀ v : α,
      f.bi v < f.num_blocks ∧
      (∀ h1 : Nat, h1 &&& (f.blockSizeBits - 1) < f.blockSizeBits ∧
        (h1 &&& (f.blockSizeBits - 1)) / 64 < f.wpb) ∧
      (f.insert v).WF) ∧
    (∀ B n : Nat, (B = 64 ∨ B = 128 ∨ B = 256 ∨ B = 512) → 0 < n →
      ∀ ws, new_builder B n = some ws →
        ∀ (th : Nat) (nr : Option Nat) (nh : Nat) (hf : α → Nat),
          (mk_filter B ws th nr nh hf).WF) ∧
    (∀ (B : Nat) (v : List Nat), (B = 64 ∨ B = 128 ∨ B = 256 ∨ B = 512) →
      v ≠ [] → ∀ ws, new_builder_from_vec B v = some ws →
        ∀ (th : Nat) (nr : Option Nat) (nh : Nat) (hf : α → Nat),
          (mk_filter B ws th nr nh hf).WF) := by
  refine ⟨new_builder_isSome, new_builder_from_vec_isSome, ?_,
    mk_filter_new_builder_WF, fun B v hB hv => mk_filter_from_vec_WF B hB v hv⟩
  intro f hwf v
  have hw64 := wf_wpb64 hwf
  have hwpos := wf_wpb_pos hwf
  refine ⟨wf_bi_lt hwf v, ?_, insert_WF f v hwf⟩
  intro h1
  have hle : h1 &&& (f.blockSizeBits - 1) ≤ f.blockSizeBits - 1 :=
    Nat.and_le_right
  constructor
  · omega
  · omega

/-- Witness for C6 at concrete builders and a concrete filter. -/
theorem C6_witness :
    (new_builder 64 100).isSome = true ∧
      (new_builder_from_vec 128 [7]).isSome = true ∧
      exF.bi 5 < exF.num_blocks ∧ (exF.insert 5).WF := by
  have h := C6_failure_semantics (α := Nat)
  have hwf : exF.WF := ⟨Or.inl rfl, by decide, by decide⟩
  exact ⟨(h.1 64 100 (by norm_num)).mpr (by norm_num),
    (h.2.1 128 [7]).mpr (by simp),
    (h.2.2.1 exF hwf 5).1, (h.2.2.1 exF hwf 5).2.2⟩

/-- C7: the `num_hashes()` reporter returns the `target_hashes` value cached
at construction (under the `u32` cast), it does not read the post-split pair
`(num_rounds, num_hashes)`, and its value is unchanged by any sequence of
inserts. -/
theorem C7_reported_num_hashes {α : Type} (f : BloomFilter α) (v : α) :
    f.reported_num_hashes = f.target_hashes % 2 ^ 32 ∧
    (f.target_hashes < 2 ^ 32 → f.reported_num_hashes = f.target_hashes) ∧
    (∀ (nr : Option Nat) (nh : Nat),
      ({ f with num_rounds := nr, num_hashes := nh } :
        BloomFilter α).reported_num_hashes = f.reported_num_hashes) ∧
    (f.insert v).reported_num_hashes = f.reported_num_hashes ∧
    (∀ xs : List α,
      (f.insert_list xs).reported_num_hashes = f.reported_num_hashes) :=
  ⟨rfl, fun h => Nat.mod_eq_of_lt h, fun _ _ => rfl, rfl,
    fun xs => insert_list_reported f xs⟩

/-- Witness for C7 at a concrete filter. -/
theorem C7_witness :
    exF.reported_num_hashes = 3 ∧
      (exF.insert 5).reported_num_hashes = exF.reported_num_hashes := by
  have h := C7_reported_num_hashes exF 5
  exact ⟨(h.2.1 (by decide)).trans rfl, h.2.2.2.1⟩

/-- C8: `next_hash` updates `h1` to `rotate_left(h1 + h2, 5)` with wrapping
(mod `2^64`) addition and returns the new `h1`; the rotation indeed rotates
the 64-bit word left by 5 (bit `i` of the result is bit `(i + 59) % 64` of
the input, and the result stays below `2^64`), and the derived-hash stream
is a function of the `(h1, h2)` seeds alone. -/
theorem C8_next_hash :
    (∀ h1 h2 : Nat, next_hash h1 h2 = rotateLeft5 ((h1 + h2) % U64)) ∧
    (∀ x : Nat, x < U64 →
      (∀ i, i < 64 → (rotateLeft5 x).testBit i = x.testBit ((i + 59) % 64)) ∧
      rotateLeft5 x < U64) ∧
    (∀ h1 h2 h1' h2' : Nat, h1 = h1' → h2 = h2' →
      ∀ k, hIter h2 k h1 = hIter h2' k h1') := by
  refine ⟨fun _ _ => rfl,
    fun x hx => ⟨fun i hi => rotateLeft5_testBit x hx i hi,
      rotateLeft5_lt x hx⟩, ?_⟩
  intro h1 h2 h1' h2' e1 e2 k
  rw [e1, e2]

/-- Witness for C8 at concrete inputs. -/
theorem C8_witness :
    next_hash 3 5 = rotateLeft5 ((3 + 5) % U64) ∧
      (rotateLeft5 6).testBit 8 = Nat.testBit 6 ((8 + 59) % 64) ∧
      rotateLeft5 6 < U64 := by
  have h := C8_next_hash
  exact ⟨h.1 3 5, (h.2.1 6 (by norm_num [U64])).1 8 (by norm_num),
    (h.2.1 6 (by norm_num [U64])).2⟩

/-- C9: a requested bit count is rounded up to a whole number of blocks:
a filter built from `builder_from_bits n` has `ceil(n / B)` blocks and
`ceil(n / B) * B` bits, so `num_bits ≥ n` and `B ∣ num_bits`. -/
theorem C9_builder_rounding {α : Type} (B n : Nat)
    (hB : B = 64 ∨ B = 128 ∨ B = 256 ∨ B = 512) (hn : 0 < n)
    (ws : List Nat) (hws : new_builder B n = some ws) (th : Nat)
    (nr : Option Nat) (nh : Nat) (hf : α → Nat) :
    (mk_filter B ws th nr nh hf).num_blocks = div_ceil n B ∧
    (mk_filter B ws th nr nh hf).num_bits = div_ceil n B * B ∧
    n ≤ (mk_filter B ws th nr nh hf).num_bits ∧
    B ∣ (mk_filter B ws th nr nh hf).num_bits := by
  obtain ⟨hw, hB64, hBpos⟩ := supported_block_size hB
  rw [new_builder_eq B n hBpos hn] at hws
  have hws' : ws = List.replicate (div_ceil n B * (B / 64)) 0 :=
    (Option.some.injEq .. ▸ hws).symm
  have hnb : (mk_filter B ws th nr nh hf).num_blocks = div_ceil n B := by
    show ws.length / (B / 64) = _
    rw [hws', List.length_replicate]
    exact Nat.mul_div_cancel _ hw
  have hbits : (mk_filter B ws th nr nh hf).num_bits = div_ceil n B * B := by
    show (mk_filter B ws th nr nh hf).num_blocks * B = _
    rw [hnb]
  refine ⟨hnb, hbits, ?_, ?_⟩
  · rw [hbits]
    exact le_div_ceil_mul n B hBpos
  · rw [hbits]
    exact dvd_mul_left B _

/-- Witness for C9: 200 requested bits at block size 128 give 2 blocks and
256 bits. -/
theorem C9_witness :
    (mk_filter (α := Nat) 128 (List.replicate 4 0) 4 none 4
      (fun n => n)).num_blocks = 2 ∧
    (mk_filter (α := Nat) 128 (List.replicate 4 0) 4 none 4
      (fun n => n)).num_bits = 256 ∧
    200 ≤ (mk_filter (α := Nat) 128 (List.replicate 4 0) 4 none 4
      (fun n => n)).num_bits := by
  have h := C9_builder_rounding (α := Nat) 128 200 (Or.inr (Or.inl rfl))
    (by norm_num) (List.replicate 4 0) (by decide) 4 none 4 (fun n => n)
  refine ⟨?_, ?_, h.2.2.1⟩
  · rw [h.1]
    decide
  · rw [h.2.1]
    decide

/-- C10: insert is idempotent on the filter state: inserting the same item
twice in succession leaves exactly the same backing words (indeed the same
filter) as inserting it once. -/
theorem C10_insert_idempotent {α : Type} (f : BloomFilter α) (v : α)
    (hwf : f.WF) :
    ((f.insert v).insert v).bits = (f.insert v).bits ∧
      (f.insert v).insert v = f.insert v := by
  have h := insert_idem f v hwf
  exact ⟨congrArg BloomFilter.bits h, h⟩

/-- Witness for C10 at a concrete filter and item. -/
theorem C10_witness :
    exF.WF ∧ (exF.insert 5).insert 5 = exF.insert 5 := by
  have hwf : exF.WF := ⟨Or.inl rfl, by decide, by decide⟩
  exact ⟨hwf, (C10_insert_idempotent exF 5 hwf).2⟩
